import Mathlib

/-!
Verification of the Delegated-MPSI core (secret_sharing.rs, approx_mpsi.rs,
main.rs) via a shallow embedding.  Bytes are modelled as `Nat`, SIMD lanes as
lists of 64 bytes, and the external services the core consumes as opaque
parameters: the BLAKE3 extensible-output function as a function argument
`xofFn`, the operating-system RNG as an explicit byte-list argument, and the
Bloom-filter encoder of the external `sets_multisets` crate as a function
argument.
-/

namespace DelegatedMPSI

/-- The constant `SHARE_BYTE_COUNT` from `main.rs`. -/
def SHARE_BYTE_COUNT : Nat := 5

/-- Byte-wise XOR of two byte lists (`zip` truncates to the shorter list,
matching Rust iterator `zip`). -/
def lxor (a b : List Nat) : List Nat := List.zipWith Nat.xor a b

/-- Three-way zip, truncating to the shortest list, matching a Rust
`zip(..).zip(..)` chain. -/
def zipWith3 (f : α → β → γ → δ) : List α → List β → List γ → List δ
  | a :: as, b :: bs, c :: cs => f a b c :: zipWith3 f as bs cs
  | _, _, _ => []

/-- Fuel-driven worker for `chunksExact`. -/
def chunksExactGo (n : Nat) : Nat → List α → List (List α)
  | 0, _ => []
  | fuel + 1, l =>
    if n = 0 ∨ l.length < n then []
    else l.take n :: chunksExactGo n fuel (l.drop n)

/-- The Rust `chunks_exact(n)` / `array_chunks::<n>()` operation: split into chunks of
exactly `n` elements, silently dropping the remainder. -/
def chunksExact (n : Nat) (l : List α) : List (List α) :=
  chunksExactGo n l.length l

theorem chunksExactGo_fuel {n : Nat} (f₁ : Nat) :
    ∀ (f₂ : Nat) (l : List α), l.length ≤ f₁ → l.length ≤ f₂ →
      chunksExactGo n f₁ l = chunksExactGo n f₂ l := by
  induction f₁ with
  | zero =>
    intro f₂ l h₁ h₂
    have hl : l = [] := List.eq_nil_of_length_eq_zero (Nat.le_zero.mp h₁)
    subst hl
    cases f₂ with
    | zero => rfl
    | succ f₂ =>
      simp only [chunksExactGo]
      by_cases hn : n = 0
      · simp [hn]
      · simp [hn, Nat.pos_of_ne_zero hn]
  | succ f₁ ih =>
    intro f₂ l h₁ h₂
    cases f₂ with
    | zero =>
      have hl : l = [] := List.eq_nil_of_length_eq_zero (Nat.le_zero.mp h₂)
      subst hl
      simp only [chunksExactGo]
      by_cases hn : n = 0
      · simp [hn]
      · simp [hn, Nat.pos_of_ne_zero hn]
    | succ f₂ =>
      simp only [chunksExactGo]
      by_cases hstop : n = 0 ∨ l.length < n
      · simp [hstop]
      · simp only [hstop, if_false]
        push_neg at hstop
        obtain ⟨hn, hnl⟩ := hstop
        have hn0 : 0 < n := Nat.pos_of_ne_zero hn
        have hd : (l.drop n).length = l.length - n := List.length_drop n l
        congr 1
        exact ih f₂ (l.drop n)
          (by omega)
          (by omega)

/-- Unfolding `chunksExact` in the empty / short case. -/
theorem chunksExact_eq_nil {n : Nat} {l : List α} (h : n = 0 ∨ l.length < n) :
    chunksExact n l = [] := by
  unfold chunksExact
  cases hl : l.length with
  | zero => rfl
  | succ m => simp only [chunksExactGo, hl]; simp [h, hl ▸ h]

/-- Unfolding `chunksExact` in the step case. -/
theorem chunksExact_cons {n : Nat} {l : List α} (hn : 0 < n) (hl : n ≤ l.length) :
    chunksExact n l = l.take n :: chunksExact n (l.drop n) := by
  unfold chunksExact
  cases hf : l.length with
  | zero => omega
  | succ m =>
    simp only [chunksExactGo]
    have hns : ¬ (n = 0 ∨ l.length < n) := by omega
    simp only [hf] at hns ⊢
    rw [if_neg (by omega : ¬ (n = 0 ∨ m + 1 < n))]
    congr 1
    exact chunksExactGo_fuel m ((l.drop n).length) (l.drop n)
      (by simp [List.length_drop]; omega) (le_refl _)

/-! ## The SIMD byte container (`secret_sharing.rs`, `SimdBytes`) -/

/-- The `SimdBytes` container from `secret_sharing.rs`: a vector of 64-byte SIMD lanes
(`Vec<Simd<u8, 64>>`), each lane modelled as a byte list of length 64. -/
structure SimdBytes where
  bytes : List (List Nat)

/-- Model of `SimdBytes::from_bytes`: `chunks_exact(64)` over the input, silently
dropping any remainder shorter than 64 bytes. -/
def SimdBytes.from_bytes (b : List Nat) : SimdBytes :=
  ⟨chunksExact 64 b⟩

/-- Model of `SimdBytes::to_bytes`: flatten the lanes back to a contiguous byte list. -/
def SimdBytes.to_bytes (x : SimdBytes) : List Nat :=
  x.bytes.flatten

/-- One `mask8x64::select(t, f)` step: byte `i` is taken from `t` when the mask bit
is set, else from `f`. -/
def laneSelect (m : List Bool) (t f : List Nat) : List Nat :=
  zipWith3 (fun b x y => if b then x else y) m t f

/-- Model of `SimdBytes::select`: lane-wise masked select; the Rust `zip` chain
truncates to the shortest of the three inputs. -/
def SimdBytes.select (masks : List (List Bool)) (tv fv : SimdBytes) : SimdBytes :=
  ⟨zipWith3 laneSelect masks tv.bytes fv.bytes⟩

/-- Model of `BitXorAssign for SimdBytes`: lanes are XORed pairwise over the zipped
prefix; lanes of `self` beyond `rhs.bytes.len()` are left unchanged. -/
def SimdBytes.xorAssign (x y : SimdBytes) : SimdBytes :=
  ⟨List.zipWith lxor x.bytes y.bytes ++ x.bytes.drop y.bytes.length⟩

/-! ## Keyed expansion and secret-sharing primitives (`secret_sharing.rs`) -/

/-- A 128-bit seed (`[u8; 16]`), modelled as its byte list. -/
abbrev Seed := List Nat

/-- The BLAKE3 XOF is an external service: any function from a seed and an
output length to a byte list.  The real `Hasher::finalize_xof().fill(buf)`
always fills the whole buffer, so theorems assume
`∀ s n, (xofFn s n).length = n`. -/
abbrev XofFn := Seed → Nat → List Nat

/-- Model of `xof` from `secret_sharing.rs`: expand the seed to `byte_count` bytes and
pack them into SIMD lanes. -/
def xof (xofFn : XofFn) (seed : Seed) (byte_count : Nat) : SimdBytes :=
  SimdBytes.from_bytes (xofFn seed byte_count)

/-- Model of `create_zero_share`: XOR of the expansions of all seeds.  The Rust code
`unwrap`s the first seed, so an empty seed list panics — modelled as `none`. -/
def create_zero_share (xofFn : XofFn) (seeds : List Seed) (byte_count : Nat) :
    Option SimdBytes :=
  match seeds with
  | [] => none
  | s :: rest =>
    some (rest.foldl (fun share seed => share.xorAssign (xof xofFn seed byte_count))
      (xof xofFn s byte_count))

/-- Model of `conditionally_corrupt_share`: expand each condition bit to 5 repeated
bits, chunk the expanded bits into 64-wide masks (`array_chunks`, dropping a
short remainder), and select fresh randomness where the mask is set, the share
where it is clear.  The OS RNG output (`OsRng.fill_bytes` over a buffer of
`5 * conditions.len()` bytes) is passed in as `randomness`. -/
def conditionally_corrupt_share (randomness : List Nat) (share : SimdBytes)
    (conditions : List Bool) : SimdBytes :=
  let conditions_expanded : List Bool :=
    conditions.flatMap (fun b => List.replicate SHARE_BYTE_COUNT b)
  let masks : List (List Bool) := chunksExact 64 conditions_expanded
  let randomness_simd := SimdBytes.from_bytes randomness
  SimdBytes.select masks randomness_simd share

/-! ## Protocol parameters (`approx_mpsi.rs`, `ApproximateMpsi`) -/

/-- The `ApproximateMpsi` parameter block. -/
structure ApproximateMpsi where
  bin_count : Nat
  hash_count : Nat
  domain_size : Nat
  set_size : Nat

/-- Model of `ApproximateMpsi::new`: `bin_count` is `minimum_bin_count.div_ceil(64) * 64`;
ceiling division on `Nat` is `q + 1` exactly when the remainder is
nonzero. -/
def ApproximateMpsi.new (minimum_bin_count hash_count domain_size set_size : Nat) :
    ApproximateMpsi where
  bin_count :=
    (if minimum_bin_count % 64 = 0 then minimum_bin_count / 64
     else minimum_bin_count / 64 + 1) * 64
  hash_count := hash_count
  domain_size := domain_size
  set_size := set_size

/-! ## The three roles (`approx_mpsi.rs`, `ApproximateMpsiParty`) -/

/-- The 5-byte cell at index `i` of a byte list, as used throughout the
protocol description. -/
def cell (b : List Nat) (i : Nat) : List Nat :=
  (b.drop (SHARE_BYTE_COUNT * i)).take SHARE_BYTE_COUNT

/-- Model of `run_client_approx`.  The Bloom-filter encoding `input.to_bloom_filter`
lives in the external `sets_multisets` crate, so the already-encoded filter of
the input set of the party is a parameter; the negated filter is handed to the
corruption primitive and the bytes of the corrupted share are what the client sends
to the server.  `none` models the panic of `create_zero_share` on an empty
seed list. -/
def run_client_approx (xofFn : XofFn) (randomness : List Nat) (seeds : List Seed)
    (bin_count : Nat) (bloom_filter : List Bool) : Option (List Nat) :=
  let permuted_bloom_filter := bloom_filter
  match create_zero_share xofFn seeds (SHARE_BYTE_COUNT * bin_count) with
  | none => none
  | some share =>
    some (conditionally_corrupt_share randomness share
      (permuted_bloom_filter.map (fun b => !b))).to_bytes

/-- The byte list the aggregation loop of the server produces from the received
share payloads (first share `unwrap`ped, the rest folded in with `^=`). -/
def aggregateShares (received : List (List Nat)) : Option SimdBytes :=
  match received with
  | [] => none
  | r :: rest =>
    some (rest.foldl (fun acc b => acc.xorAssign (SimdBytes.from_bytes b))
      (SimdBytes.from_bytes r))

/-- The inner loop of the server query test: XOR the 5-byte cells selected
by one query pattern into a zero accumulator. -/
def patternXor (shares : List (List Nat)) (pattern : List Nat) : List Nat :=
  pattern.foldl (fun acc index => lxor acc (shares.getD index []))
    (List.replicate SHARE_BYTE_COUNT 0)

/-- Model of `run_server_approx`: parse and XOR-aggregate the `n-1` received share
payloads, split the aggregate into 5-byte cells (`array_chunks::<5>`), answer
each query pattern with whether its cells XOR to the zero cell, and reply with
the boolean list.  `none` models the two panics: no received share
(`unwrap` of the first) and a pattern index out of range (`shares[index]`). -/
def run_server_approx (received : List (List Nat)) (query_patterns : List (List Nat)) :
    Option (List Bool) :=
  match aggregateShares received with
  | none => none
  | some aggregated_share =>
    let shares : List (List Nat) := chunksExact SHARE_BYTE_COUNT aggregated_share.to_bytes
    if query_patterns.all (fun pattern => pattern.all (fun index => index < shares.length))
    then some (query_patterns.map (fun pattern =>
      patternXor shares pattern == List.replicate SHARE_BYTE_COUNT 0))
    else none

/-- The query patterns the querier sends: one Bloom-index list per element of
its set, in element order.  `bloom_filter_indices` is external
(`sets_multisets`), so it is a parameter. -/
def querier_patterns (bloomIndices : Nat → List Nat) (elements : List Nat) :
    List (List Nat) :=
  elements.map (fun element => bloomIndices element)

/-- The final filtering step of the querier (`run_querier_approx`): zip its elements
with the received booleans and keep the elements whose boolean is true. -/
def querier_output (elements : List Nat) (query_results : List Bool) : List Nat :=
  ((elements.zip query_results).filter (fun p => p.2)).map (fun p => p.1)

/-! ## Byte-level XOR algebra -/

theorem lxor_length (a b : List Nat) : (lxor a b).length = min a.length b.length := by
  simp [lxor]

theorem lxor_comm (a b : List Nat) : lxor a b = lxor b a := by
  unfold lxor
  induction a generalizing b with
  | nil => cases b <;> rfl
  | cons x xs ih =>
    cases b with
    | nil => rfl
    | cons y ys =>
      simp only [List.zipWith_cons_cons, ih]
      have hc : Nat.xor x y = Nat.xor y x := Nat.xor_comm x y
      rw [hc]

theorem lxor_assoc (a b c : List Nat) : lxor (lxor a b) c = lxor a (lxor b c) := by
  unfold lxor
  induction a generalizing b c with
  | nil => rfl
  | cons x xs ih =>
    cases b with
    | nil => rfl
    | cons y ys =>
      cases c with
      | nil => rfl
      | cons z zs =>
        simp only [List.zipWith_cons_cons, ih]
        have ha : Nat.xor (Nat.xor x y) z = Nat.xor x (Nat.xor y z) := Nat.xor_assoc x y z
        rw [ha]

theorem lxor_left_comm (a b c : List Nat) : lxor a (lxor b c) = lxor b (lxor a c) := by
  rw [← lxor_assoc, lxor_comm a b, lxor_assoc]

theorem lxor_self (a : List Nat) : lxor a a = List.replicate a.length 0 := by
  unfold lxor
  induction a with
  | nil => rfl
  | cons x xs ih =>
    simp only [List.zipWith_cons_cons, ih, List.length_cons, List.replicate]
    have hx : Nat.xor x x = 0 := Nat.xor_self x
    rw [hx]

theorem lxor_zero_left {n : Nat} {b : List Nat} (h : b.length ≤ n) :
    lxor (List.replicate n 0) b = b := by
  unfold lxor
  induction b generalizing n with
  | nil => cases n <;> rfl
  | cons y ys ih =>
    cases n with
    | zero => simp at h
    | succ n =>
      simp only [List.replicate, List.zipWith_cons_cons]
      have hy : Nat.xor 0 y = y := Nat.zero_xor y
      rw [hy, ih (by simpa using h)]

theorem lxor_zero_right {n : Nat} {a : List Nat} (h : a.length ≤ n) :
    lxor a (List.replicate n 0) = a := by
  rw [lxor_comm]; exact lxor_zero_left h

/-- XOR-sum of a list of byte lists, with the all-zero list of length `L` as
the unit. -/
def sumXor (L : Nat) (l : List (List Nat)) : List Nat :=
  l.foldr lxor (List.replicate L 0)

theorem sumXor_nil (L : Nat) : sumXor L [] = List.replicate L 0 := rfl

theorem sumXor_cons (L : Nat) (a : List Nat) (l : List (List Nat)) :
    sumXor L (a :: l) = lxor a (sumXor L l) := rfl

theorem sumXor_length {L : Nat} {l : List (List Nat)} (h : ∀ x ∈ l, x.length = L) :
    (sumXor L l).length = L := by
  induction l with
  | nil => simp [sumXor]
  | cons a t ih =>
    have ha : a.length = L := h a (List.mem_cons_self a t)
    have ht := ih (fun x hx => h x (List.mem_cons_of_mem a hx))
    rw [sumXor_cons, lxor_length, ha, ht, Nat.min_self]

theorem sumXor_perm {L : Nat} {l₁ l₂ : List (List Nat)} (h : List.Perm l₁ l₂) :
    sumXor L l₁ = sumXor L l₂ := by
  induction h with
  | nil => rfl
  | cons x _ ih => rw [sumXor_cons, sumXor_cons, ih]
  | swap x y l => rw [sumXor_cons, sumXor_cons, sumXor_cons, sumXor_cons, lxor_left_comm]
  | trans _ _ ih₁ ih₂ => rw [ih₁, ih₂]

theorem foldr_lxor_eq {L : Nat} {l : List (List Nat)} {s : List Nat}
    (hl : ∀ x ∈ l, x.length = L) (hs : s.length = L) :
    l.foldr lxor s = lxor (sumXor L l) s := by
  induction l with
  | nil =>
    simp only [List.foldr_nil, sumXor_nil]
    exact (lxor_zero_left (Nat.le_of_eq hs)).symm
  | cons a t ih =>
    have ht := ih (fun x hx => hl x (List.mem_cons_of_mem a hx))
    simp only [List.foldr_cons, ht, sumXor_cons, lxor_assoc]

theorem sumXor_append {L : Nat} {l₁ l₂ : List (List Nat)}
    (h₁ : ∀ x ∈ l₁, x.length = L) (h₂ : ∀ x ∈ l₂, x.length = L) :
    sumXor L (l₁ ++ l₂) = lxor (sumXor L l₁) (sumXor L l₂) := by
  unfold sumXor
  rw [List.foldr_append]
  exact foldr_lxor_eq h₁ (sumXor_length h₂)

theorem foldl_lxor_eq {L : Nat} {l : List (List Nat)} {a : List Nat}
    (hl : ∀ x ∈ l, x.length = L) (ha : a.length = L) :
    l.foldl lxor a = lxor a (sumXor L l) := by
  induction l generalizing a with
  | nil => simp [sumXor_nil, lxor_zero_right (Nat.le_of_eq ha)]
  | cons x t ih =>
    have hx : x.length = L := hl x (List.mem_cons_self x t)
    have hax : (lxor a x).length = L := by rw [lxor_length, ha, hx, Nat.min_self]
    rw [List.foldl_cons, ih (fun z hz => hl z (List.mem_cons_of_mem x hz)) hax,
      sumXor_cons, lxor_assoc]

theorem perm_cons_erase_beq {α : Type} [BEq α] [LawfulBEq α] {a : α} :
    ∀ {l : List α}, a ∈ l → List.Perm l (a :: l.erase a) := by
  intro l
  induction l with
  | nil => intro h; cases h
  | cons b t ih =>
    intro h
    by_cases hb : b = a
    · subst hb
      rw [List.erase_cons_head]
    · have hmem : a ∈ t := by
        rcases List.mem_cons.mp h with h | h
        · exact absurd h.symm hb
        · exact h
      have hbeq : ¬ ((b == a) = true) := by
        simp only [beq_iff_eq]
        exact hb
      rw [List.erase_cons_tail hbeq]
      exact ((ih hmem).cons b).trans (List.Perm.swap a b (t.erase a))

/-- XOR-cancellation: mapping any length-`L`-valued function over a list in
which every element occurs an even number of times XOR-sums to zero. -/
theorem sumXor_map_even {α : Type} [BEq α] [LawfulBEq α] {L : Nat} {f : α → List Nat}
    (hf : ∀ s, (f s).length = L) :
    ∀ (fuel : Nat) (l : List α), l.length ≤ fuel → (∀ x, Even (l.count x)) →
      sumXor L (l.map f) = List.replicate L 0 := by
  intro fuel
  induction fuel with
  | zero =>
    intro l hlen _
    have : l = [] := List.eq_nil_of_length_eq_zero (Nat.le_zero.mp hlen)
    subst this; rfl
  | succ fuel ih =>
    intro l hlen heven
    cases l with
    | nil => rfl
    | cons a t =>
      have hct : Even ((a :: t).count a) := heven a
      have hmem : a ∈ t := by
        by_contra hna
        have h0 : t.count a = 0 := List.count_eq_zero.mpr hna
        rw [List.count_cons_self, h0] at hct
        rcases hct with ⟨k, hk⟩
        omega
      have hperm : List.Perm t (a :: t.erase a) := perm_cons_erase_beq hmem
      have herase_even : ∀ x, Even ((t.erase a).count x) := by
        intro x
        have hcx := heven x
        rw [List.count_cons] at hcx
        rw [List.count_erase]
        by_cases hxa : x = a
        · subst hxa
          have hpos : 0 < t.count x := List.count_pos_iff.mpr hmem
          have hbeq : (x == x) = true := beq_self_eq_true x
          rw [if_pos hbeq] at hcx ⊢
          rcases hcx with ⟨k, hk⟩
          exact ⟨k - 1, by omega⟩
        · have hne₂ : (a == x) = false := beq_eq_false_iff_ne.mpr (fun h => hxa h.symm)
          have hnp : ¬ ((a == x) = true) := by simp [hne₂]
          rw [if_neg hnp] at hcx
          rw [if_neg hnp]
          simpa using hcx
      have herase_len : (t.erase a).length ≤ fuel := by
        have h1 : (t.erase a).length = t.length - 1 := by
          rw [List.length_erase, if_pos hmem]
        simp only [List.length_cons] at hlen
        omega
      have hrec := ih (t.erase a) herase_len herase_even
      have hlen_map : ∀ x ∈ t.map f, x.length = L := by
        intro x hx
        obtain ⟨s, _, rfl⟩ := List.mem_map.mp hx
        exact hf s
      calc sumXor L ((a :: t).map f)
          = lxor (f a) (sumXor L (t.map f)) := by rw [List.map_cons, sumXor_cons]
        _ = lxor (f a) (sumXor L ((a :: t.erase a).map f)) := by
            rw [sumXor_perm (hperm.map f)]
        _ = lxor (f a) (lxor (f a) (sumXor L ((t.erase a).map f))) := by
            rw [List.map_cons, sumXor_cons]
        _ = lxor (lxor (f a) (f a)) (sumXor L ((t.erase a).map f)) := by
            rw [lxor_assoc]
        _ = List.replicate L 0 := by
            rw [lxor_self, hf a, hrec,
              lxor_zero_left (by simp)]

/-! ## Structural lemmas about `chunksExact` -/

theorem chunksExact_zero (l : List α) : chunksExact 0 l = [] :=
  chunksExact_eq_nil (Or.inl rfl)

theorem chunksExact_length_fuel {n : Nat} (hn : 0 < n) :
    ∀ (fuel : Nat) (l : List α), l.length ≤ fuel →
      (chunksExact n l).length = l.length / n := by
  intro fuel
  induction fuel with
  | zero =>
    intro l h
    have hl : l = [] := List.eq_nil_of_length_eq_zero (Nat.le_zero.mp h)
    subst hl
    rw [chunksExact_eq_nil (Or.inr (by simpa using hn))]
    simp
  | succ fuel ih =>
    intro l h
    by_cases hl : l.length < n
    · rw [chunksExact_eq_nil (Or.inr hl), Nat.div_eq_of_lt hl]
      rfl
    · push_neg at hl
      rw [chunksExact_cons hn hl]
      simp only [List.length_cons]
      rw [ih (l.drop n) (by simp only [List.length_drop]; omega),
        List.length_drop, Nat.div_eq_sub_div hn hl]

theorem chunksExact_length (n : Nat) (l : List α) :
    (chunksExact n l).length = l.length / n := by
  by_cases hn : n = 0
  · subst hn
    rw [chunksExact_zero]
    simp
  · exact chunksExact_length_fuel (Nat.pos_of_ne_zero hn) l.length l (le_refl _)

theorem chunksExact_mem_fuel {n : Nat} :
    ∀ (fuel : Nat) (l : List α) (c : List α), l.length ≤ fuel →
      c ∈ chunksExact n l → c.length = n := by
  intro fuel
  induction fuel with
  | zero =>
    intro l c h hc
    have hl : l = [] := List.eq_nil_of_length_eq_zero (Nat.le_zero.mp h)
    subst hl
    by_cases hn : n = 0
    · rw [hn, chunksExact_zero] at hc
      simp at hc
    · rw [chunksExact_eq_nil (Or.inr (by simp [Nat.pos_of_ne_zero hn]))] at hc
      simp at hc
  | succ fuel ih =>
    intro l c h hc
    by_cases hn : n = 0
    · rw [hn, chunksExact_zero] at hc
      simp at hc
    · have hn0 : 0 < n := Nat.pos_of_ne_zero hn
      by_cases hl : l.length < n
      · rw [chunksExact_eq_nil (Or.inr hl)] at hc
        simp at hc
      · push_neg at hl
        rw [chunksExact_cons hn0 hl] at hc
        rcases List.mem_cons.mp hc with hc | hc
        · subst hc
          exact List.length_take_of_le hl
        · exact ih (l.drop n) c (by simp only [List.length_drop]; omega) hc

theorem chunksExact_mem {n : Nat} {l : List α} {c : List α}
    (hc : c ∈ chunksExact n l) : c.length = n :=
  chunksExact_mem_fuel l.length l c (le_refl _) hc

theorem chunksExact_flatten_fuel {n : Nat} (hn : 0 < n) :
    ∀ (fuel : Nat) (l : List α), l.length ≤ fuel →
      (chunksExact n l).flatten = l.take (n * (l.length / n)) := by
  intro fuel
  induction fuel with
  | zero =>
    intro l h
    have hl : l = [] := List.eq_nil_of_length_eq_zero (Nat.le_zero.mp h)
    subst hl
    rw [chunksExact_eq_nil (Or.inr (by simpa using hn))]
    simp
  | succ fuel ih =>
    intro l h
    by_cases hl : l.length < n
    · rw [chunksExact_eq_nil (Or.inr hl), Nat.div_eq_of_lt hl]
      simp
    · push_neg at hl
      rw [chunksExact_cons hn hl]
      rw [List.flatten_cons]
      rw [ih (l.drop n) (by simp only [List.length_drop]; omega)]
      rw [List.length_drop, Nat.div_eq_sub_div hn hl]
      rw [Nat.mul_add, Nat.mul_one, Nat.add_comm (n * ((l.length - n) / n)) n,
        List.take_add]

theorem chunksExact_flatten (n : Nat) (l : List α) :
    (chunksExact n l).flatten = l.take (n * (l.length / n)) := by
  by_cases hn : n = 0
  · subst hn
    rw [chunksExact_zero]
    simp
  · exact chunksExact_flatten_fuel (Nat.pos_of_ne_zero hn) l.length l (le_refl _)

/-! ## `zipWith3` lemmas -/

theorem zipWith3_length (f : α → β → γ → δ) :
    ∀ (a : List α) (b : List β) (c : List γ),
      (zipWith3 f a b c).length = min a.length (min b.length c.length) := by
  intro a
  induction a with
  | nil => intro b c; simp [zipWith3]
  | cons x xs ih =>
    intro b c
    cases b with
    | nil => simp [zipWith3]
    | cons y ys =>
      cases c with
      | nil => simp [zipWith3]
      | cons z zs =>
        simp only [zipWith3, List.length_cons, ih]
        omega

theorem zipWith3_getElem (f : α → β → γ → δ) :
    ∀ (a : List α) (b : List β) (d : List γ) (i : Nat)
      (ha : i < a.length) (hb : i < b.length) (hd : i < d.length)
      (h : i < (zipWith3 f a b d).length),
      (zipWith3 f a b d)[i] = f a[i] b[i] d[i] := by
  intro a
  induction a with
  | nil => intro b d i ha; simp at ha
  | cons x xs ih =>
    intro b d i ha hb hd h
    cases b with
    | nil => simp at hb
    | cons y ys =>
      cases d with
      | nil => simp at hd
      | cons z zs =>
        cases i with
        | zero => rfl
        | succ i =>
          simp only [zipWith3, List.getElem_cons_succ]
          exact ih ys zs i (by simpa using ha) (by simpa using hb)
            (by simpa using hd) (by simpa [zipWith3] using h)

theorem zipWith3_append (f : α → β → γ → δ) :
    ∀ (a₁ : List α) (b₁ : List β) (c₁ : List γ) (a₂ : List α) (b₂ : List β)
      (c₂ : List γ), a₁.length = b₁.length → a₁.length = c₁.length →
      zipWith3 f (a₁ ++ a₂) (b₁ ++ b₂) (c₁ ++ c₂) =
        zipWith3 f a₁ b₁ c₁ ++ zipWith3 f a₂ b₂ c₂ := by
  intro a₁
  induction a₁ with
  | nil =>
    intro b₁ c₁ a₂ b₂ c₂ hb hc
    have hb0 : b₁ = [] := List.eq_nil_of_length_eq_zero (by simpa using hb.symm)
    have hc0 : c₁ = [] := List.eq_nil_of_length_eq_zero (by simpa using hc.symm)
    subst hb0; subst hc0
    rfl
  | cons x xs ih =>
    intro b₁ c₁ a₂ b₂ c₂ hb hc
    cases b₁ with
    | nil => simp at hb
    | cons y ys =>
      cases c₁ with
      | nil => simp at hc
      | cons z zs =>
        simp only [List.cons_append, zipWith3, List.append_eq]
        rw [ih ys zs a₂ b₂ c₂ (by simpa using hb) (by simpa using hc)]

/-! ## Lane-level lemmas about `SimdBytes` -/

theorem from_bytes_lanes {b : List Nat} {lane : List Nat}
    (h : lane ∈ (SimdBytes.from_bytes b).bytes) : lane.length = 64 :=
  chunksExact_mem h

theorem from_bytes_count (b : List Nat) :
    (SimdBytes.from_bytes b).bytes.length = b.length / 64 :=
  chunksExact_length 64 b

theorem to_bytes_from_bytes (b : List Nat) :
    (SimdBytes.from_bytes b).to_bytes = b.take (64 * (b.length / 64)) :=
  chunksExact_flatten 64 b

theorem flatten_length_of_forall {k : Nat} :
    ∀ (l : List (List α)), (∀ x ∈ l, x.length = k) → l.flatten.length = k * l.length := by
  intro l
  induction l with
  | nil => simp
  | cons x xs ih =>
    intro h
    simp only [List.flatten_cons, List.length_append, List.length_cons,
      h x (List.mem_cons_self x xs), ih (fun z hz => h z (List.mem_cons_of_mem x hz))]
    ring

theorem to_bytes_length {x : SimdBytes} (h : ∀ lane ∈ x.bytes, lane.length = 64) :
    x.to_bytes.length = 64 * x.bytes.length :=
  flatten_length_of_forall x.bytes h

theorem to_bytes_from_bytes_of_dvd {b : List Nat} (h : 64 ∣ b.length) :
    (SimdBytes.from_bytes b).to_bytes = b := by
  rw [to_bytes_from_bytes, Nat.mul_div_cancel' h, List.take_length]

theorem flatten_zipWith_lxor {k : Nat} :
    ∀ (xs ys : List (List Nat)), (∀ x ∈ xs, x.length = k) →
      (∀ y ∈ ys, y.length = k) →
      (List.zipWith lxor xs ys).flatten = lxor xs.flatten ys.flatten := by
  intro xs
  induction xs with
  | nil => intro ys _ _; rfl
  | cons x xt ih =>
    intro ys hx hy
    cases ys with
    | nil => simp [lxor]
    | cons y yt =>
      simp only [List.zipWith_cons_cons, List.flatten_cons]
      rw [ih yt (fun z hz => hx z (List.mem_cons_of_mem x hz))
        (fun z hz => hy z (List.mem_cons_of_mem y hz))]
      unfold lxor
      rw [List.zipWith_append _ x (xt.flatten) y (yt.flatten)
        (by rw [hx x (List.mem_cons_self x xt), hy y (List.mem_cons_self y yt)])]

theorem zipWith_lxor_lanes {k : Nat} :
    ∀ (xs ys : List (List Nat)), (∀ x ∈ xs, x.length = k) →
      (∀ y ∈ ys, y.length = k) →
      ∀ l ∈ List.zipWith lxor xs ys, l.length = k := by
  intro xs
  induction xs with
  | nil => intro ys _ _ l hl; simp at hl
  | cons x xt ih =>
    intro ys hx hy l hl
    cases ys with
    | nil => simp at hl
    | cons y yt =>
      simp only [List.zipWith_cons_cons, List.mem_cons] at hl
      rcases hl with hl | hl
      · subst hl
        rw [lxor_length, hx x (List.mem_cons_self x xt), hy y (List.mem_cons_self y yt),
          Nat.min_self]
      · exact ih yt (fun z hz => hx z (List.mem_cons_of_mem x hz))
          (fun z hz => hy z (List.mem_cons_of_mem y hz)) l hl

theorem xorAssign_bytes_of_length_eq {x y : SimdBytes}
    (hxy : x.bytes.length = y.bytes.length) :
    (x.xorAssign y).bytes = List.zipWith lxor x.bytes y.bytes := by
  unfold SimdBytes.xorAssign
  rw [List.drop_eq_nil_of_le (Nat.le_of_eq hxy), List.append_nil]

theorem xorAssign_count (x y : SimdBytes) :
    (x.xorAssign y).bytes.length = x.bytes.length := by
  unfold SimdBytes.xorAssign
  simp only [List.length_append, List.length_zipWith, List.length_drop]
  omega

theorem xorAssign_lanes {x y : SimdBytes}
    (hx : ∀ l ∈ x.bytes, l.length = 64) (hy : ∀ l ∈ y.bytes, l.length = 64) :
    ∀ l ∈ (x.xorAssign y).bytes, l.length = 64 := by
  intro l hl
  unfold SimdBytes.xorAssign at hl
  rcases List.mem_append.mp hl with hl | hl
  · exact zipWith_lxor_lanes x.bytes y.bytes hx hy l hl
  · exact hx l (List.mem_of_mem_drop hl)

theorem xorAssign_to_bytes {x y : SimdBytes}
    (hx : ∀ l ∈ x.bytes, l.length = 64) (hy : ∀ l ∈ y.bytes, l.length = 64)
    (hxy : x.bytes.length = y.bytes.length) :
    (x.xorAssign y).to_bytes = lxor x.to_bytes y.to_bytes := by
  unfold SimdBytes.to_bytes
  rw [xorAssign_bytes_of_length_eq hxy]
  exact flatten_zipWith_lxor x.bytes y.bytes hx hy

/-! ## Characterizing `create_zero_share` -/

theorem xof_lanes (xofFn : XofFn) (s : Seed) (L : Nat) :
    ∀ lane ∈ (xof xofFn s L).bytes, lane.length = 64 :=
  fun _ h => from_bytes_lanes h

theorem xof_count {xofFn : XofFn} (hxof : ∀ s n, (xofFn s n).length = n)
    (s : Seed) (L : Nat) : (xof xofFn s L).bytes.length = L / 64 := by
  unfold xof
  rw [from_bytes_count, hxof]

theorem xof_to_bytes {xofFn : XofFn} (hxof : ∀ s n, (xofFn s n).length = n)
    (s : Seed) {L : Nat} (hL : 64 ∣ L) : (xof xofFn s L).to_bytes = xofFn s L := by
  unfold xof
  apply to_bytes_from_bytes_of_dvd
  rw [hxof]
  exact hL

theorem foldl_xorAssign_spec {xofFn : XofFn} (hxof : ∀ s n, (xofFn s n).length = n)
    {L : Nat} (hL : 64 ∣ L) :
    ∀ (rest : List Seed) (acc : SimdBytes),
      (∀ lane ∈ acc.bytes, lane.length = 64) → acc.bytes.length = L / 64 →
      (∀ lane ∈ (rest.foldl
          (fun share seed => share.xorAssign (xof xofFn seed L)) acc).bytes,
        lane.length = 64) ∧
      (rest.foldl (fun share seed => share.xorAssign (xof xofFn seed L)) acc).bytes.length
          = L / 64 ∧
      (rest.foldl (fun share seed => share.xorAssign (xof xofFn seed L)) acc).to_bytes
          = rest.foldl (fun b t => lxor b (xofFn t L)) acc.to_bytes := by
  intro rest
  induction rest with
  | nil => intro acc h₁ h₂; exact ⟨h₁, h₂, rfl⟩
  | cons t ts ih =>
    intro acc h₁ h₂
    simp only [List.foldl_cons]
    have hx₁ := xorAssign_lanes h₁ (xof_lanes xofFn t L)
    have hx₂ : (acc.xorAssign (xof xofFn t L)).bytes.length = L / 64 := by
      rw [xorAssign_count, h₂]
    have hx₃ : (acc.xorAssign (xof xofFn t L)).to_bytes = lxor acc.to_bytes (xofFn t L) := by
      rw [xorAssign_to_bytes h₁ (xof_lanes xofFn t L) (by rw [h₂, xof_count hxof]),
        xof_to_bytes hxof t hL]
    obtain ⟨g₁, g₂, g₃⟩ := ih (acc.xorAssign (xof xofFn t L)) hx₁ hx₂
    exact ⟨g₁, g₂, by rw [g₃, hx₃]⟩

theorem create_zero_share_spec {xofFn : XofFn} (hxof : ∀ s n, (xofFn s n).length = n)
    {L : Nat} (hL : 64 ∣ L) (s : Seed) (rest : List Seed) :
    ∃ sh : SimdBytes, create_zero_share xofFn (s :: rest) L = some sh ∧
      (∀ lane ∈ sh.bytes, lane.length = 64) ∧ sh.bytes.length = L / 64 ∧
      sh.to_bytes = sumXor L ((s :: rest).map (fun t => xofFn t L)) := by
  refine ⟨_, rfl, ?_⟩
  obtain ⟨g₁, g₂, g₃⟩ := foldl_xorAssign_spec hxof hL rest (xof xofFn s L)
    (xof_lanes xofFn s L) (xof_count hxof s L)
  refine ⟨g₁, g₂, ?_⟩
  rw [g₃, xof_to_bytes hxof s hL]
  have hfm : rest.foldl (fun b t => lxor b (xofFn t L)) (xofFn s L)
      = (rest.map (fun t => xofFn t L)).foldl lxor (xofFn s L) := by
    rw [List.foldl_map]
  rw [hfm, foldl_lxor_eq (fun x hx => by
      obtain ⟨t, _, rfl⟩ := List.mem_map.mp hx
      exact hxof t L) (hxof s L),
    List.map_cons, sumXor_cons]

theorem sumXor_map_flatten {L : Nat} (f : Seed → List Nat)
    (hf : ∀ s, (f s).length = L) :
    ∀ (groups : List (List Seed)),
      sumXor L (groups.map (fun g => sumXor L (g.map f)))
        = sumXor L (groups.flatten.map f) := by
  intro groups
  induction groups with
  | nil => rfl
  | cons g gs ih =>
    rw [List.map_cons, sumXor_cons, ih, List.flatten_cons, List.map_append,
      sumXor_append (fun x hx => by
          obtain ⟨t, _, rfl⟩ := List.mem_map.mp hx
          exact hf t)
        (fun x hx => by
          obtain ⟨t, _, rfl⟩ := List.mem_map.mp hx
          exact hf t)]

theorem forall₂_map_self {α β : Type} (P : α → β → Prop) (g : α → β) :
    ∀ (l : List α), (∀ x ∈ l, P x (g x)) → List.Forall₂ P l (l.map g) := by
  intro l
  induction l with
  | nil => intro _; exact List.Forall₂.nil
  | cons x xs ih =>
    intro h
    exact List.Forall₂.cons (h x (List.mem_cons_self x xs))
      (ih fun z hz => h z (List.mem_cons_of_mem x hz))

/-- C1: zero-share closure.  For `k ≥ 2` seed lists in which every seed value
occurs exactly twice overall (the pairwise construction of `setup_parties`),
every list nonempty, and any byte length `L` divisible by 64, each call
`create_zero_share(seeds_i, L)` succeeds and the cell-wise XOR of all `k`
outputs is the all-zero vector of length `L`. -/
theorem zero_share_closure (xofFn : XofFn) (hxof : ∀ s n, (xofFn s n).length = n)
    (seedLists : List (List Seed)) (L : Nat) (hL : 64 ∣ L)
    (hk : 2 ≤ seedLists.length)
    (hne : ∀ seeds ∈ seedLists, seeds ≠ [])
    (hpair : ∀ s : Seed, seedLists.flatten.count s = 2 ∨ seedLists.flatten.count s = 0) :
    ∃ outs : List SimdBytes,
      List.Forall₂ (fun seeds out => create_zero_share xofFn seeds L = some out)
        seedLists outs ∧
      sumXor L (outs.map SimdBytes.to_bytes) = List.replicate L 0 := by
  have hg : ∀ seeds ∈ seedLists,
      create_zero_share xofFn seeds L
          = some ((create_zero_share xofFn seeds L).getD ⟨[]⟩) ∧
      ((create_zero_share xofFn seeds L).getD ⟨[]⟩).to_bytes
          = sumXor L (seeds.map (fun t => xofFn t L)) := by
    intro seeds hs
    obtain ⟨s, rest, rfl⟩ := List.exists_cons_of_ne_nil (hne seeds hs)
    obtain ⟨sh, hsh, _, _, hbytes⟩ := create_zero_share_spec hxof hL s rest
    rw [hsh]
    exact ⟨rfl, hbytes⟩
  refine ⟨seedLists.map (fun seeds => (create_zero_share xofFn seeds L).getD ⟨[]⟩),
    forall₂_map_self _ _ seedLists (fun seeds hs => (hg seeds hs).1), ?_⟩
  have hmap : (seedLists.map
        (fun seeds => (create_zero_share xofFn seeds L).getD ⟨[]⟩)).map
          SimdBytes.to_bytes
      = seedLists.map (fun seeds => sumXor L (seeds.map (fun t => xofFn t L))) := by
    rw [List.map_map]
    exact List.map_congr_left (fun seeds hs => (hg seeds hs).2)
  rw [hmap, sumXor_map_flatten (fun t => xofFn t L) (fun t => hxof t L)]
  exact sumXor_map_even (fun t => hxof t L) seedLists.flatten.length seedLists.flatten
    (le_refl _)
    (fun s => by
      rcases hpair s with h | h
      · rw [h]; exact ⟨1, rfl⟩
      · rw [h]; exact ⟨0, rfl⟩)

/-- Witness for C1 at a concrete instance: two clients sharing the single seed
`[1]`, a constant-zero XOF model, and `L = 64`. -/
theorem zero_share_closure_witness :
    ∃ outs : List SimdBytes,
      List.Forall₂
        (fun seeds out =>
          create_zero_share (fun _ n => List.replicate n 0) seeds 64 = some out)
        [[[1]], [[1]]] outs ∧
      sumXor 64 (outs.map SimdBytes.to_bytes) = List.replicate 64 0 :=
  zero_share_closure (fun _ n => List.replicate n 0) (fun _ n => by simp)
    [[[1]], [[1]]] 64 ⟨1, rfl⟩ (by simp) (by decide)
    (fun s => by
      by_cases h : s = ([1] : Seed)
      · subst h
        left
        decide
      · right
        have h₁ : (([1] : Seed) == s) = false :=
          beq_eq_false_iff_ne.mpr (fun hh => h hh.symm)
        simp [List.count_cons, h₁])

/-- C7: parameter rounding.  `ApproximateMpsi::new` stores as `bin_count` the
least multiple of 64 that is at least `minimum_bin_count`; consequently
`bin_count * SHARE_BYTE_COUNT` is a multiple of 64, and `SHARE_BYTE_COUNT`
is the constant 5. -/
theorem bin_count_rounding (m h d s : Nat) :
    64 ∣ (ApproximateMpsi.new m h d s).bin_count ∧
    m ≤ (ApproximateMpsi.new m h d s).bin_count ∧
    (∀ c₀ : Nat, 64 ∣ c₀ → m ≤ c₀ → (ApproximateMpsi.new m h d s).bin_count ≤ c₀) ∧
    64 ∣ ((ApproximateMpsi.new m h d s).bin_count * SHARE_BYTE_COUNT) ∧
    SHARE_BYTE_COUNT = 5 := by
  have hbc : (ApproximateMpsi.new m h d s).bin_count
      = (if m % 64 = 0 then m / 64 else m / 64 + 1) * 64 := rfl
  have h5 : SHARE_BYTE_COUNT = 5 := rfl
  refine ⟨?_, ?_, ?_, ?_, rfl⟩
  · rw [hbc, Nat.dvd_iff_mod_eq_zero]
    split <;> omega
  · rw [hbc]
    split <;> omega
  · intro c₀ hdvd hm
    obtain ⟨j, rfl⟩ := hdvd
    rw [hbc]
    split <;> omega
  · rw [hbc, h5, Nat.dvd_iff_mod_eq_zero]
    split <;> omega

/-- Witness for C7 at `minimum_bin_count = 100`, where the stored value is 128. -/
theorem bin_count_rounding_witness :
    64 ∣ (ApproximateMpsi.new 100 3 256 32).bin_count ∧
    100 ≤ (ApproximateMpsi.new 100 3 256 32).bin_count ∧
    (∀ c₀ : Nat, 64 ∣ c₀ → 100 ≤ c₀ → (ApproximateMpsi.new 100 3 256 32).bin_count ≤ c₀) ∧
    64 ∣ ((ApproximateMpsi.new 100 3 256 32).bin_count * SHARE_BYTE_COUNT) ∧
    SHARE_BYTE_COUNT = 5 :=
  bin_count_rounding 100 3 256 32

/-- C8: round-trip of the SIMD byte container on inputs whose length is a
multiple of 64. -/
theorem simd_round_trip (b : List Nat) (h : 64 ∣ b.length) :
    (SimdBytes.from_bytes b).to_bytes = b :=
  to_bytes_from_bytes_of_dvd h

set_option maxRecDepth 8000 in
/-- Witness for C8 at a 128-byte input. -/
theorem simd_round_trip_witness :
    64 ∣ (List.replicate 128 7).length ∧
    (SimdBytes.from_bytes (List.replicate 128 7)).to_bytes = List.replicate 128 7 :=
  ⟨by decide, simd_round_trip (List.replicate 128 7) (by decide)⟩

/-- C10: `SimdBytes::from_bytes` is total and silently truncating: any input
parses into exactly `⌊len/64⌋` full lanes and flattening back returns the
first `64·⌊len/64⌋` bytes, the remainder being dropped without error. -/
theorem from_bytes_total_truncates (b : List Nat) :
    (SimdBytes.from_bytes b).bytes.length = b.length / 64 ∧
    (∀ lane ∈ (SimdBytes.from_bytes b).bytes, lane.length = 64) ∧
    (SimdBytes.from_bytes b).to_bytes = b.take (64 * (b.length / 64)) :=
  ⟨from_bytes_count b, fun _ hl => from_bytes_lanes hl, to_bytes_from_bytes b⟩

/-- Witness for C10 at a 65-byte input (one lane kept, one byte dropped). -/
theorem from_bytes_total_truncates_witness :
    (SimdBytes.from_bytes (List.replicate 65 3)).bytes.length
        = (List.replicate 65 3).length / 64 ∧
    (∀ lane ∈ (SimdBytes.from_bytes (List.replicate 65 3)).bytes, lane.length = 64) ∧
    (SimdBytes.from_bytes (List.replicate 65 3)).to_bytes
        = (List.replicate 65 3).take (64 * ((List.replicate 65 3).length / 64)) :=
  from_bytes_total_truncates (List.replicate 65 3)

/-- C9: `create_zero_share` panics on an empty seed list (modelled as `none`),
and on any nonempty seed list with a byte count divisible by 64 it returns a
share whose byte representation has exactly `byte_count` bytes. -/
theorem create_zero_share_empty_and_total (xofFn : XofFn) (byte_count : Nat) :
    create_zero_share xofFn [] byte_count = none ∧
    (∀ seeds : List Seed, seeds ≠ [] → (∀ s n, (xofFn s n).length = n) →
      64 ∣ byte_count →
      ∃ sh, create_zero_share xofFn seeds byte_count = some sh ∧
        sh.to_bytes.length = byte_count) := by
  refine ⟨rfl, ?_⟩
  intro seeds hne hxof hdvd
  obtain ⟨s, rest, rfl⟩ := List.exists_cons_of_ne_nil hne
  obtain ⟨sh, hsh, hlanes, hcount, _⟩ := create_zero_share_spec hxof hdvd s rest
  refine ⟨sh, hsh, ?_⟩
  rw [to_bytes_length hlanes, hcount, Nat.mul_div_cancel' hdvd]

/-- Witness for C9 with the one-seed list `[[2]]` and `byte_count = 64`. -/
theorem create_zero_share_empty_and_total_witness :
    create_zero_share (fun _ n => List.replicate n 0) [] 64 = none ∧
    ∃ sh, create_zero_share (fun _ n => List.replicate n 0) [[2]] 64 = some sh ∧
      sh.to_bytes.length = 64 := by
  obtain ⟨h₁, h₂⟩ := create_zero_share_empty_and_total (fun _ n => List.replicate n 0) 64
  exact ⟨h₁, h₂ [[2]] (by decide) (fun _ n => by simp) (by decide)⟩

/-! ## Byte-level characterization of conditional corruption -/

theorem zipWith3_nil_second (f : α → β → γ → δ) (a : List α) (d : List γ) :
    zipWith3 f a [] d = [] := by
  cases a <;> cases d <;> rfl

theorem zipWith3_nil_third (f : α → β → γ → δ) (a : List α) (b : List β) :
    zipWith3 f a b [] = [] := by
  cases a <;> cases b <;> rfl

theorem flatten_zipWith3_select {k : Nat} :
    ∀ (ms : List (List Bool)) (ts fs : List (List Nat)),
      (∀ m ∈ ms, m.length = k) → (∀ t ∈ ts, t.length = k) →
      (∀ f ∈ fs, f.length = k) →
      (zipWith3 laneSelect ms ts fs).flatten
        = zipWith3 (fun b x y => if b then x else y) ms.flatten ts.flatten fs.flatten := by
  intro ms
  induction ms with
  | nil => intro ts fs _ _ _; rfl
  | cons m mt ih =>
    intro ts fs hm ht hf
    cases ts with
    | nil => simp [zipWith3_nil_second]
    | cons t tt =>
      cases fs with
      | nil => simp [zipWith3_nil_third]
      | cons f ft =>
        show (laneSelect m t f :: zipWith3 laneSelect mt tt ft).flatten = _
        rw [List.flatten_cons,
          ih tt ft (fun z hz => hm z (List.mem_cons_of_mem m hz))
            (fun z hz => ht z (List.mem_cons_of_mem t hz))
            (fun z hz => hf z (List.mem_cons_of_mem f hz)),
          List.flatten_cons, List.flatten_cons, List.flatten_cons,
          zipWith3_append _ m t f mt.flatten tt.flatten ft.flatten
            (by rw [hm m (List.mem_cons_self m mt), ht t (List.mem_cons_self t tt)])
            (by rw [hm m (List.mem_cons_self m mt), hf f (List.mem_cons_self f ft)])]
        rfl

theorem flatMap_replicate_length {α : Type} (n : Nat) :
    ∀ (l : List α), (l.flatMap (fun b => List.replicate n b)).length = n * l.length := by
  intro l
  induction l with
  | nil => simp
  | cons b t ih =>
    rw [List.flatMap_cons, List.length_append, List.length_replicate, ih,
      List.length_cons, Nat.mul_succ]
    omega

theorem flatMap_replicate_getElem? {α : Type} {n : Nat} (hn : 0 < n) :
    ∀ (l : List α) (j : Nat), j < n * l.length →
      (l.flatMap (fun b => List.replicate n b))[j]? = l[j / n]? := by
  intro l
  induction l with
  | nil => intro j hj; simp at hj
  | cons b t ih =>
    intro j hj
    rw [List.flatMap_cons]
    by_cases hjn : j < n
    · rw [List.getElem?_append, if_pos (by simpa using hjn), Nat.div_eq_of_lt hjn]
      simp [List.getElem?_replicate, hjn]
    · push_neg at hjn
      rw [List.getElem?_append_right (by simpa using hjn), List.length_replicate,
        Nat.div_eq_sub_div hn hjn, List.getElem?_cons_succ]
      refine ih (j - n) ?_
      rw [List.length_cons, Nat.mul_succ] at hj
      omega

theorem corrupt_to_bytes {randomness : List Nat} {share : SimdBytes}
    {conditions : List Bool}
    (hsh : ∀ lane ∈ share.bytes, lane.length = 64)
    (hlen : share.to_bytes.length = SHARE_BYTE_COUNT * conditions.length)
    (hrand : randomness.length = SHARE_BYTE_COUNT * conditions.length) :
    (conditionally_corrupt_share randomness share conditions).to_bytes
      = zipWith3 (fun b x y => if b then x else y)
          (conditions.flatMap (fun b => List.replicate SHARE_BYTE_COUNT b))
          randomness share.to_bytes := by
  have hdvd : 64 ∣ SHARE_BYTE_COUNT * conditions.length := by
    rw [← hlen, to_bytes_length hsh]
    exact Dvd.intro share.bytes.length rfl
  have hexp : (conditions.flatMap (fun b => List.replicate SHARE_BYTE_COUNT b)).length
      = SHARE_BYTE_COUNT * conditions.length :=
    flatMap_replicate_length SHARE_BYTE_COUNT conditions
  unfold conditionally_corrupt_share
  show (SimdBytes.select _ _ _).to_bytes = _
  unfold SimdBytes.select SimdBytes.to_bytes
  rw [flatten_zipWith3_select _ _ _
    (fun z hz => chunksExact_mem hz)
    (fun z hz => from_bytes_lanes hz) hsh]
  have hmasks : (chunksExact 64
        (conditions.flatMap (fun b => List.replicate SHARE_BYTE_COUNT b))).flatten
      = conditions.flatMap (fun b => List.replicate SHARE_BYTE_COUNT b) := by
    rw [chunksExact_flatten, hexp, Nat.mul_div_cancel' hdvd, ← hexp, List.take_length]
  have hrnd : (SimdBytes.from_bytes randomness).bytes.flatten = randomness := by
    show (SimdBytes.from_bytes randomness).to_bytes = randomness
    exact to_bytes_from_bytes_of_dvd (by rw [hrand]; exact hdvd)
  rw [hmasks, hrnd]

theorem cell_getElem? (x : List Nat) (i j : Nat) :
    (cell x i)[j]? = if j < 5 then x[5 * i + j]? else none := by
  have hc5 : SHARE_BYTE_COUNT = 5 := rfl
  unfold cell
  rw [List.getElem?_take, hc5, List.getElem?_drop]

theorem cell_select {conditions : List Bool} {r s : List Nat} {i : Nat}
    (hi : i < conditions.length)
    (hr : r.length = SHARE_BYTE_COUNT * conditions.length)
    (hs : s.length = SHARE_BYTE_COUNT * conditions.length) :
    cell (zipWith3 (fun b x y => if b then x else y)
        (conditions.flatMap (fun b => List.replicate SHARE_BYTE_COUNT b))
        r s) i
      = if conditions[i] then cell r i else cell s i := by
  have hc5 : SHARE_BYTE_COUNT = 5 := rfl
  have hr5 : r.length = 5 * conditions.length := by rw [← hc5]; exact hr
  have hs5 : s.length = 5 * conditions.length := by rw [← hc5]; exact hs
  have hexp : (conditions.flatMap (fun b => List.replicate SHARE_BYTE_COUNT b)).length
      = 5 * conditions.length := by
    rw [flatMap_replicate_length SHARE_BYTE_COUNT conditions, hc5]
  have hout : (zipWith3 (fun b x y => if b then x else y)
      (conditions.flatMap (fun b => List.replicate SHARE_BYTE_COUNT b)) r s).length
      = 5 * conditions.length := by
    rw [zipWith3_length, hexp, hr5, hs5]
    omega
  have hpoint : ∀ j : Nat, j < 5 →
      (zipWith3 (fun b x y => if b then x else y)
        (conditions.flatMap (fun b => List.replicate SHARE_BYTE_COUNT b)) r s)[5 * i + j]?
        = if conditions[i] then r[5 * i + j]? else s[5 * i + j]? := by
    intro j hj
    have hb : 5 * i + j < 5 * conditions.length := by omega
    rw [List.getElem?_eq_getElem (by rw [hout]; exact hb),
      List.getElem?_eq_getElem (show 5 * i + j < r.length by rw [hr5]; exact hb),
      List.getElem?_eq_getElem (show 5 * i + j < s.length by rw [hs5]; exact hb)]
    rw [zipWith3_getElem _ _ _ _ _ (by rw [hexp]; exact hb)
      (by rw [hr5]; exact hb) (by rw [hs5]; exact hb) (by rw [hout]; exact hb)]
    have hbexp : 5 * i + j
        < (conditions.flatMap (fun b => List.replicate SHARE_BYTE_COUNT b)).length := by
      rw [hexp]
      exact hb
    have hecond : (conditions.flatMap
        (fun b => List.replicate SHARE_BYTE_COUNT b))[5 * i + j]
          = conditions[i] := by
      have hq := flatMap_replicate_getElem? (show 0 < SHARE_BYTE_COUNT by rw [hc5]; omega)
        conditions (5 * i + j) (by rw [hc5]; exact hb)
      have hdivi : (5 * i + j) / SHARE_BYTE_COUNT = i := by
        rw [hc5, Nat.mul_add_div (by omega) i j, Nat.div_eq_of_lt hj]
        omega
      rw [hdivi] at hq
      rw [List.getElem?_eq_getElem (by rw [hexp]; exact hb),
        List.getElem?_eq_getElem hi] at hq
      exact Option.some_injective _ hq
    rw [hecond]
    cases hcb : conditions[i] <;> simp [hcb]
  by_cases hcond : conditions[i]
  · rw [if_pos hcond]
    refine List.ext_getElem? (fun j => ?_)
    rw [cell_getElem?, cell_getElem?]
    by_cases hj : j < 5
    · rw [if_pos hj, if_pos hj, hpoint j hj, if_pos hcond]
    · rw [if_neg hj, if_neg hj]
  · rw [if_neg hcond]
    refine List.ext_getElem? (fun j => ?_)
    rw [cell_getElem?, cell_getElem?]
    by_cases hj : j < 5
    · rw [if_pos hj, if_pos hj, hpoint j hj, if_neg hcond]
    · rw [if_neg hj, if_neg hj]

/-- C2: conditional corruption localization.  For a share of `5·L` bytes and
conditions of length `L`, cell `i` of the output equals the freshly drawn
5-byte randomness cell when `conditions[i]` is true, and the input share cell
unchanged when it is false. -/
theorem conditional_corruption_localization {randomness : List Nat}
    {share : SimdBytes} {conditions : List Bool}
    (hsh : ∀ lane ∈ share.bytes, lane.length = 64)
    (hlen : share.to_bytes.length = SHARE_BYTE_COUNT * conditions.length)
    (hrand : randomness.length = SHARE_BYTE_COUNT * conditions.length)
    (i : Nat) (hi : i < conditions.length) :
    cell (conditionally_corrupt_share randomness share conditions).to_bytes i
      = if conditions[i] then cell randomness i else cell share.to_bytes i := by
  rw [corrupt_to_bytes hsh hlen hrand]
  exact cell_select hi hrand hlen

set_option maxRecDepth 8000 in
/-- Witness for C2: `L = 64`, an all-ones share, condition true only at cell 0,
whose output cell is the randomness cell. -/
theorem conditional_corruption_localization_witness :
    cell (conditionally_corrupt_share (List.replicate 320 9)
        (SimdBytes.from_bytes (List.replicate 320 1))
        (true :: List.replicate 63 false)).to_bytes 0
      = cell (List.replicate 320 9) 0 := by
  have h := @conditional_corruption_localization (List.replicate 320 9)
    (SimdBytes.from_bytes (List.replicate 320 1)) (true :: List.replicate 63 false)
    (fun _ hl => from_bytes_lanes hl)
    (by
      rw [to_bytes_from_bytes_of_dvd (by rw [List.length_replicate]; decide)]
      simp [SHARE_BYTE_COUNT])
    (by simp [SHARE_BYTE_COUNT])
    0 (by simp)
  simpa using h

/-- C3: client-role corruption polarity.  The client encodes its input as a
Bloom filter, hands the cell-wise negation of the filter to the corruption
primitive, and sends bytes that keep its zero-share exactly in the cells whose
Bloom bit is 1 and carry fresh randomness in the cells whose Bloom bit is 0. -/
theorem client_role_polarity {xofFn : XofFn} (hxof : ∀ s n, (xofFn s n).length = n)
    (randomness : List Nat) (seeds : List Seed) (bin_count : Nat)
    (bloom_filter : List Bool)
    (hseeds : seeds ≠ []) (hbin : 64 ∣ bin_count)
    (hbloom : bloom_filter.length = bin_count)
    (hrand : randomness.length = SHARE_BYTE_COUNT * bin_count) :
    ∃ share : SimdBytes,
      create_zero_share xofFn seeds (SHARE_BYTE_COUNT * bin_count) = some share ∧
      run_client_approx xofFn randomness seeds bin_count bloom_filter
        = some (conditionally_corrupt_share randomness share
            (bloom_filter.map (fun b => !b))).to_bytes ∧
      ∀ (i : Nat) (hi : i < bloom_filter.length),
        cell (conditionally_corrupt_share randomness share
            (bloom_filter.map (fun b => !b))).to_bytes i
          = if bloom_filter[i] then cell share.to_bytes i else cell randomness i := by
  obtain ⟨s, rest, rfl⟩ := List.exists_cons_of_ne_nil hseeds
  have hdvd : 64 ∣ SHARE_BYTE_COUNT * bin_count := hbin.mul_left SHARE_BYTE_COUNT
  obtain ⟨share, hshare, hlanes, hcount, _⟩ := create_zero_share_spec hxof hdvd s rest
  refine ⟨share, hshare, ?_, ?_⟩
  · unfold run_client_approx
    rw [hshare]
  · intro i hi
    have hclen : (bloom_filter.map (fun b => !b)).length = bin_count := by
      rw [List.length_map, hbloom]
    have hlen : share.to_bytes.length
        = SHARE_BYTE_COUNT * (bloom_filter.map (fun b => !b)).length := by
      rw [to_bytes_length hlanes, hcount, Nat.mul_div_cancel' hdvd, hclen]
    have hrand' : randomness.length
        = SHARE_BYTE_COUNT * (bloom_filter.map (fun b => !b)).length := by
      rw [hclen]
      exact hrand
    have hi' : i < (bloom_filter.map (fun b => !b)).length := by
      rw [hclen, ← hbloom]
      exact hi
    have hcell := corrupt_to_bytes hlanes hlen hrand'
    rw [hcell, cell_select hi' hrand' hlen]
    have hii : i < bloom_filter.length := hi
    have hmap : (bloom_filter.map (fun b => !b))[i] = !(bloom_filter[i]) := by
      simp
    rw [hmap]
    cases hb : bloom_filter[i] <;> simp

set_option maxRecDepth 8000 in
/-- Witness for C3: one seed `[3]`, `bin_count = 64`, all-true Bloom filter. -/
theorem client_role_polarity_witness :
    ∃ share : SimdBytes,
      create_zero_share (fun _ n => List.replicate n 0) [[3]]
          (SHARE_BYTE_COUNT * 64) = some share ∧
      run_client_approx (fun _ n => List.replicate n 0) (List.replicate 320 9)
          [[3]] 64 (List.replicate 64 true)
        = some (conditionally_corrupt_share (List.replicate 320 9) share
            ((List.replicate 64 true).map (fun b => !b))).to_bytes ∧
      ∀ (i : Nat) (hi : i < (List.replicate 64 true).length),
        cell (conditionally_corrupt_share (List.replicate 320 9) share
            ((List.replicate 64 true).map (fun b => !b))).to_bytes i
          = if (List.replicate 64 true)[i] then cell share.to_bytes i
            else cell (List.replicate 320 9) i :=
  client_role_polarity (fun _ n => by simp) (List.replicate 320 9) [[3]] 64
    (List.replicate 64 true) (by decide) (by decide) (by simp)
    (by simp [SHARE_BYTE_COUNT])

/-! ## The server role -/

theorem foldl_xorAssign_from_bytes_shape :
    ∀ (rest : List (List Nat)) (acc : SimdBytes),
      (∀ lane ∈ acc.bytes, lane.length = 64) →
      (∀ lane ∈ (rest.foldl
          (fun a b => a.xorAssign (SimdBytes.from_bytes b)) acc).bytes,
        lane.length = 64) ∧
      (rest.foldl (fun a b => a.xorAssign (SimdBytes.from_bytes b)) acc).bytes.length
        = acc.bytes.length := by
  intro rest
  induction rest with
  | nil => intro acc h; exact ⟨h, rfl⟩
  | cons b bs ih =>
    intro acc h
    simp only [List.foldl_cons]
    obtain ⟨g₁, g₂⟩ := ih (acc.xorAssign (SimdBytes.from_bytes b))
      (xorAssign_lanes h (fun _ hl => from_bytes_lanes hl))
    exact ⟨g₁, by rw [g₂, xorAssign_count]⟩

theorem aggregateShares_spec {received : List (List Nat)} {r : List Nat}
    {rest : List (List Nat)} (hr : received = r :: rest) :
    ∃ agg : SimdBytes, aggregateShares received = some agg ∧
      (∀ lane ∈ agg.bytes, lane.length = 64) ∧
      agg.bytes.length = r.length / 64 := by
  subst hr
  refine ⟨_, rfl, ?_⟩
  obtain ⟨g₁, g₂⟩ := foldl_xorAssign_from_bytes_shape rest (SimdBytes.from_bytes r)
    (fun _ hl => from_bytes_lanes hl)
  exact ⟨g₁, by rw [g₂, from_bytes_count]⟩

theorem run_server_approx_eq {received : List (List Nat)}
    {query_patterns : List (List Nat)} {agg : SimdBytes}
    (hagg : aggregateShares received = some agg)
    (hidx : ∀ pattern ∈ query_patterns, ∀ index ∈ pattern,
      index < (chunksExact SHARE_BYTE_COUNT agg.to_bytes).length) :
    run_server_approx received query_patterns
      = some (query_patterns.map (fun pattern =>
          patternXor (chunksExact SHARE_BYTE_COUNT agg.to_bytes) pattern
            == List.replicate SHARE_BYTE_COUNT 0)) := by
  unfold run_server_approx
  rw [hagg]
  show (if (query_patterns.all fun pattern => pattern.all fun index =>
        decide (index < (chunksExact SHARE_BYTE_COUNT agg.to_bytes).length)) = true
      then some (List.map (fun pattern =>
        patternXor (chunksExact SHARE_BYTE_COUNT agg.to_bytes) pattern
          == List.replicate SHARE_BYTE_COUNT 0) query_patterns)
      else none) = _
  rw [if_pos (List.all_eq_true.mpr (fun pattern hp =>
    List.all_eq_true.mpr (fun index hmem =>
      decide_eq_true (hidx pattern hp index hmem))))]

/-- C4: the server query test.  With all received shares of the correct
`bin_count·5` size and in-range query patterns, the server succeeds, the
aggregate splits into exactly `bin_count` cells, one boolean is produced per
pattern in order, and boolean `j` is true exactly when the XOR of the
cells of the aggregate selected by pattern `j` form the all-zero 5-byte cell under XOR. -/
theorem server_query_test (received : List (List Nat))
    (query_patterns : List (List Nat)) (bin_count : Nat)
    (hne : received ≠ [])
    (hlens : ∀ b ∈ received, b.length = SHARE_BYTE_COUNT * bin_count)
    (hbin : 64 ∣ bin_count)
    (hidx : ∀ pattern ∈ query_patterns, ∀ index ∈ pattern, index < bin_count) :
    ∃ (agg : SimdBytes) (results : List Bool),
      aggregateShares received = some agg ∧
      (chunksExact SHARE_BYTE_COUNT agg.to_bytes).length = bin_count ∧
      run_server_approx received query_patterns = some results ∧
      results.length = query_patterns.length ∧
      ∀ (j : Nat) (hj : j < query_patterns.length) (hjr : j < results.length),
        (results[j] = true ↔
          patternXor (chunksExact SHARE_BYTE_COUNT agg.to_bytes) query_patterns[j]
            = List.replicate SHARE_BYTE_COUNT 0) := by
  obtain ⟨r, rest, rfl⟩ := List.exists_cons_of_ne_nil hne
  obtain ⟨agg, hagg, hlanes, hcount⟩ := aggregateShares_spec rfl
  have hc5 : SHARE_BYTE_COUNT = 5 := rfl
  have hrlen : r.length = SHARE_BYTE_COUNT * bin_count :=
    hlens r (List.mem_cons_self r rest)
  have hdvd : 64 ∣ SHARE_BYTE_COUNT * bin_count := hbin.mul_left SHARE_BYTE_COUNT
  have haggbytes : agg.to_bytes.length = SHARE_BYTE_COUNT * bin_count := by
    rw [to_bytes_length hlanes, hcount, hrlen, Nat.mul_div_cancel' hdvd]
  have hcells : (chunksExact SHARE_BYTE_COUNT agg.to_bytes).length = bin_count := by
    rw [chunksExact_length, haggbytes, hc5]
    omega
  have hidx' : ∀ pattern ∈ query_patterns, ∀ index ∈ pattern,
      index < (chunksExact SHARE_BYTE_COUNT agg.to_bytes).length := by
    intro pattern hp index hi
    rw [hcells]
    exact hidx pattern hp index hi
  refine ⟨agg, _, hagg, hcells, run_server_approx_eq hagg hidx', by simp, ?_⟩
  intro j hj hjr
  have hjm : j < (query_patterns.map (fun pattern =>
      patternXor (chunksExact SHARE_BYTE_COUNT agg.to_bytes) pattern
        == List.replicate SHARE_BYTE_COUNT 0)).length := by
    simpa using hj
  simp only [List.getElem_map]
  exact beq_iff_eq

set_option maxRecDepth 20000 in
/-- Witness for C4: two identical correct-size shares cancel, so the single
query pattern `[0]` answers true. -/
theorem server_query_test_witness :
    ∃ (agg : SimdBytes) (results : List Bool),
      aggregateShares [List.replicate 320 1, List.replicate 320 1] = some agg ∧
      (chunksExact SHARE_BYTE_COUNT agg.to_bytes).length = 64 ∧
      run_server_approx [List.replicate 320 1, List.replicate 320 1] [[0]]
        = some results ∧
      results.length = 1 ∧
      ∀ (j : Nat) (hj : j < 1) (hjr : j < results.length),
        (results[j] = true ↔
          patternXor (chunksExact SHARE_BYTE_COUNT agg.to_bytes) [[0]][j]
            = List.replicate SHARE_BYTE_COUNT 0) := by
  have h := server_query_test [List.replicate 320 1, List.replicate 320 1] [[0]] 64
    (by decide)
    (by
      intro b hb
      rcases List.mem_cons.mp hb with hb | hb
      · rw [hb]; simp [SHARE_BYTE_COUNT]
      · rcases List.mem_cons.mp hb with hb | hb
        · rw [hb]; simp [SHARE_BYTE_COUNT]
        · simp at hb)
    (by decide)
    (by decide)
  obtain ⟨agg, results, h₁, h₂, h₃, h₄, h₅⟩ := h
  exact ⟨agg, results, h₁, h₂, h₃, by simpa using h₄, h₅⟩

/-! ## The querier role -/

theorem querier_output_cons_true (e : Nat) (es : List Nat) (bs : List Bool) :
    querier_output (e :: es) (true :: bs) = e :: querier_output es bs := by
  unfold querier_output
  rw [List.zip_cons_cons, List.filter_cons]
  simp

theorem querier_output_cons_false (e : Nat) (es : List Nat) (bs : List Bool) :
    querier_output (e :: es) (false :: bs) = querier_output es bs := by
  unfold querier_output
  rw [List.zip_cons_cons, List.filter_cons]
  simp

theorem querier_output_mem :
    ∀ (elements : List Nat) (res : List Bool) (x : Nat),
      x ∈ querier_output elements res ↔
        ∃ j : Nat, elements[j]? = some x ∧ res[j]? = some true := by
  intro elements
  induction elements with
  | nil =>
    intro res x
    simp [querier_output]
  | cons e es ih =>
    intro res x
    cases res with
    | nil =>
      constructor
      · intro h
        simp [querier_output] at h
      · intro ⟨j, _, hr⟩
        simp at hr
    | cons b bs =>
      cases b with
      | true =>
        rw [querier_output_cons_true]
        constructor
        · intro h
          rcases List.mem_cons.mp h with h | h
          · exact ⟨0, by simp [h], by simp⟩
          · obtain ⟨j, hj₁, hj₂⟩ := (ih bs x).mp h
            exact ⟨j + 1, by simpa using hj₁, by simpa using hj₂⟩
        · intro ⟨j, hj₁, hj₂⟩
          cases j with
          | zero =>
            simp only [List.getElem?_cons_zero, Option.some.injEq] at hj₁
            exact List.mem_cons.mpr (Or.inl hj₁.symm)
          | succ j =>
            rw [List.getElem?_cons_succ] at hj₁ hj₂
            exact List.mem_cons.mpr (Or.inr ((ih bs x).mpr ⟨j, hj₁, hj₂⟩))
      | false =>
        rw [querier_output_cons_false]
        constructor
        · intro h
          obtain ⟨j, hj₁, hj₂⟩ := (ih bs x).mp h
          exact ⟨j + 1, by simpa using hj₁, by simpa using hj₂⟩
        · intro ⟨j, hj₁, hj₂⟩
          cases j with
          | zero => simp at hj₂
          | succ j =>
            rw [List.getElem?_cons_succ] at hj₁ hj₂
            exact (ih bs x).mpr ⟨j, hj₁, hj₂⟩

/-- C5: querier output filtering.  The querier sends one pattern per element in
element order (`querier_patterns`), interprets the `j`-th boolean as answering
the `j`-th element, and outputs exactly the elements whose boolean is true; in
particular the output is a subset of the own elements of the querier. -/
theorem querier_output_filtering (bloomIndices : Nat → List Nat)
    (elements : List Nat) (query_results : List Bool) :
    (querier_patterns bloomIndices elements).length = elements.length ∧
    (∀ j : Nat, (querier_patterns bloomIndices elements)[j]?
        = (elements[j]?).map bloomIndices) ∧
    (∀ x ∈ querier_output elements query_results, x ∈ elements) ∧
    (∀ x : Nat, x ∈ querier_output elements query_results ↔
      ∃ j : Nat, elements[j]? = some x ∧ query_results[j]? = some true) := by
  refine ⟨by simp [querier_patterns], ?_, ?_, querier_output_mem elements query_results⟩
  · intro j
    unfold querier_patterns
    rw [List.getElem?_map]
  · intro x hx
    obtain ⟨j, hj₁, _⟩ := (querier_output_mem elements query_results x).mp hx
    exact List.getElem?_mem hj₁

/-- Witness for C5 at a concrete instance: elements `[4, 5]`, replies
`[true, false]`, output `[4]`. -/
theorem querier_output_filtering_witness :
    (querier_patterns (fun e => [e]) [4, 5]).length = ([4, 5] : List Nat).length ∧
    (∀ j : Nat, (querier_patterns (fun e => [e]) [4, 5])[j]?
        = (([4, 5] : List Nat)[j]?).map (fun e => [e])) ∧
    (∀ x ∈ querier_output [4, 5] [true, false], x ∈ ([4, 5] : List Nat)) ∧
    (∀ x : Nat, x ∈ querier_output [4, 5] [true, false] ↔
      ∃ j : Nat, ([4, 5] : List Nat)[j]? = some x ∧
        ([true, false] : List Bool)[j]? = some true) :=
  querier_output_filtering (fun e => [e]) [4, 5] [true, false]

/-! ## Share-size mismatch behaviour at the server -/

set_option maxRecDepth 20000 in
/-- C6 is refuted at a concrete input: with `bin_count = 64` the expected share
size is `64 · SHARE_BYTE_COUNT = 320` bytes, yet when both clients send
64-byte payloads the server does not abort — it truncates, aggregates, and
answers the query pattern `[0]` with `true`. -/
theorem share_size_mismatch_counterexample :
    (List.replicate 64 1).length ≠ 64 * SHARE_BYTE_COUNT ∧
    run_server_approx [List.replicate 64 1, List.replicate 64 1] [[0]]
      = some [true] := by
  exact ⟨by decide, by decide⟩

/-- C6 amended: the server performs no share-size validation at all.  For any
received payload lengths — matching `bin_count · 5` or not — it parses each
payload into whole 64-byte lanes (dropping any remainder), aggregates, and
answers every query pattern; the only aborts are a missing first share or an
out-of-range query index. -/
theorem share_size_mismatch_amended (received : List (List Nat))
    (query_patterns : List (List Nat)) (hne : received ≠ [])
    (hidx : ∀ pattern ∈ query_patterns, ∀ index ∈ pattern,
      index < (chunksExact SHARE_BYTE_COUNT
        ((aggregateShares received).getD ⟨[]⟩).to_bytes).length) :
    ∃ results : List Bool,
      run_server_approx received query_patterns = some results ∧
      results.length = query_patterns.length := by
  obtain ⟨r, rest, rfl⟩ := List.exists_cons_of_ne_nil hne
  obtain ⟨agg, hagg, _, _⟩ := aggregateShares_spec rfl
  rw [hagg] at hidx
  simp only [Option.getD_some] at hidx
  exact ⟨_, run_server_approx_eq hagg hidx, by simp⟩

set_option maxRecDepth 20000 in
/-- Witness for the amended C6 at the same wrong-size input as the
counterexample. -/
theorem share_size_mismatch_amended_witness :
    ∃ results : List Bool,
      run_server_approx [List.replicate 64 1, List.replicate 64 1] [[0]]
        = some results ∧
      results.length = 1 :=
  share_size_mismatch_amended [List.replicate 64 1, List.replicate 64 1] [[0]]
    (by decide) (by decide)

end DelegatedMPSI
